import Mathlib

/-!
Shallow embedding of the forwarded-chain extraction engine of QuickChain.

Strings are modelled as `List Char` (JavaScript strings are sequences of
UTF-16 units; every input relevant here is plain text, and the embedding
treats a string as its list of characters).  The host date-parsing
primitive `new Date(s)` is modelled as an abstract deterministic function
`dp : List Char → Option Int` (a parsed instant is an `Int` timestamp,
`none` standing for JavaScript's Invalid Date); every component that calls
the date parser is parameterised by `dp`.

Sources embedded:
  * src/js/queue.js        — cleanEmailText, parseFlexibleDate, parseOutlookDate
  * src/unnamed/part_000   — identifyMessageBoundaries
  * src/js/emailChain.js   — extractEmailFromSection
  * src/js/chainParser.js  — parseForwardedChain
-/

/-- Character class of the JavaScript regex `\s` (and of `String.prototype.trim`):
tab, LF, VT, FF, CR, space, NBSP, Ogham space mark, the U+2000–U+200A range,
LS, PS, NNBSP, MMSP, ideographic space and BOM. -/
def jsWS (c : Char) : Bool :=
  c = ' ' || c = '\t' || c = '\n' || c = '\x0b' || c = '\x0c' || c = '\r' ||
  c = ' ' || c = ' ' || (' ' ≤ c && c ≤ ' ') ||
  c = ' ' || c = ' ' || c = ' ' || c = ' ' ||
  c = '　' || c = '﻿'

/-- Character class of the JavaScript regex `.` without the `s` flag: any
character except the four line terminators. -/
def dotChar (c : Char) : Bool :=
  !(c = '\n' || c = '\r' || c = ' ' || c = ' ')

/-- ASCII lower-casing, the canonicalisation performed by the `i` flag of a
non-unicode JavaScript regex on the ASCII patterns used in this code base
(a non-ASCII character never canonicalises to an ASCII one without the `u`
flag). -/
def lowerA (c : Char) : Char :=
  if 'A' ≤ c && c ≤ 'Z' then Char.ofNat (c.toNat + 32) else c

/-- Exact (case-sensitive) prefix test: `startsWithE pat s`. -/
def startsWithE : List Char → List Char → Bool
  | [], _ => true
  | _ :: _, [] => false
  | p :: ps, c :: cs => (c = p) && startsWithE ps cs

/-- Case-insensitive prefix test (pattern given in lower case). -/
def startsWithCI : List Char → List Char → Bool
  | [], _ => true
  | _ :: _, [] => false
  | p :: ps, c :: cs => (lowerA c = p) && startsWithCI ps cs

/-- JavaScript `body.split('\n')`: always returns at least one piece, keeps
empty pieces. -/
def splitNl : List Char → List (List Char)
  | [] => [[]]
  | c :: cs =>
    if c = '\n' then [] :: splitNl cs
    else
      match splitNl cs with
      | [] => [[c]]
      | l :: ls => (c :: l) :: ls

/-- `Array.prototype.join('\n')` on a list of lines. -/
def joinNl : List (List Char) → List Char
  | [] => []
  | [l] => l
  | l :: ls => l ++ '\n' :: joinNl ls

/-- JavaScript `String.prototype.trim()`: strip `jsWS` characters from both
ends (trailing side first, via reversal). -/
def jsTrim (s : List Char) : List Char :=
  List.dropWhile jsWS ((List.dropWhile jsWS s.reverse).reverse)

/-- JavaScript `s.substring(a, b)`: clamps both indices to `[0, length]` and
swaps them when `a > b`. -/
def jsSubstring (s : List Char) (a b : Nat) : List Char :=
  let a' := min a s.length
  let b' := min b s.length
  (s.take (max a' b')).drop (min a' b')

/-! ## Header Text Cleaner — `cleanEmailText` (src/js/queue.js lines 136–150) -/

/-- Match of the regex `<mailto:([^>]+)>` anchored at the front of `s`
(case-sensitive, as in the source): returns the total length of the match
when the front of `s` is `<mailto:` followed by at least one non-`>`
character and then `>`. -/
def mailtoSplitLen (s : List Char) : Option Nat :=
  if startsWithE "<mailto:".toList s then
    let r := s.drop 8
    let t := r.takeWhile (fun c => !(c = '>'))
    if t.length = 0 then none
    else if t.length < r.length then some (8 + t.length + 1)
    else none
  else none

/-- Left-to-right scan of `text.replace(/<mailto:([^>]+)>/g, '')`: the first
argument counts characters of a previous match still to be discarded (the
scan resumes after each match, as JavaScript `replace` does). -/
def rmGo : Nat → List Char → List Char
  | _, [] => []
  | Nat.succ k, _ :: cs => rmGo k cs
  | 0, c :: cs =>
    match mailtoSplitLen (c :: cs) with
    | some len => rmGo (len - 1) cs
    | none => c :: rmGo 0 cs

/-- `text.replace(/<mailto:([^>]+)>/g, '')`. -/
def removeMailto (s : List Char) : List Char := rmGo 0 s

/-- Match of the regex `(\S+@\S+)\s+<\1>` anchored at the front of `s`.
Backtracking analysis of the JavaScript engine: the first `\S+`, the `@`
and the second `\S+` are all confined to the maximal non-whitespace run
`R` at the front of `s`, and since the second `\S+` must be followed by
whitespace it must reach the end of `R`; hence the group `\1` is `R`
itself, the match requires an `@` at an internal position of `R`, and the
choice of `@` position never changes the match.  Returns the captured
group (the replacement `$1`) and the total match length. -/
def dupSplit (s : List Char) : Option (List Char × Nat) :=
  let R := s.takeWhile (fun c => !jsWS c)
  if R.length = 0 then none
  else if '@' ∈ (R.drop 1).dropLast then
    let after := s.drop R.length
    let w := after.takeWhile jsWS
    if w.length = 0 then none
    else if startsWithE ('<' :: (R ++ ['>'])) (after.drop w.length) then
      some (R, R.length + w.length + R.length + 2)
    else none
  else none

/-- Left-to-right scan of `text.replace(/(\S+@\S+)\s+<\1>/g, '$1')`, with the
same skip-counter convention as `rmGo`. -/
def rdGo : Nat → List Char → List Char
  | _, [] => []
  | Nat.succ k, _ :: cs => rdGo k cs
  | 0, c :: cs =>
    match dupSplit (c :: cs) with
    | some (g, len) => g ++ rdGo (len - 1) cs
    | none => c :: rdGo 0 cs

/-- `text.replace(/(\S+@\S+)\s+<\1>/g, '$1')`. -/
def removeDup (s : List Char) : List Char := rdGo 0 s

/-- `text.replace(/\s+/g, ' ')`: each maximal whitespace run becomes a single
space.  The Boolean argument records whether the previous character was
whitespace (i.e. whether a run is being consumed). -/
def cwGo : Bool → List Char → List Char
  | _, [] => []
  | prevWS, c :: cs =>
    if jsWS c then
      if prevWS then cwGo true cs else ' ' :: cwGo true cs
    else c :: cwGo false cs

/-- `text.replace(/\s+/g, ' ')`. -/
def collapseWS (s : List Char) : List Char := cwGo false s

/-- `cleanEmailText` (src/js/queue.js lines 136–150): falsy (empty) input is
returned as `''`; otherwise remove `<mailto:…>` decorations, collapse
`ADDR <ADDR>` duplicates, collapse whitespace runs and trim. -/
def cleanEmailText (s : List Char) : List Char :=
  if s = [] then []
  else jsTrim (collapseWS (removeDup (removeMailto s)))

/-! ## Flexible Date Parser (src/js/queue.js lines 158–204) -/

/-- ASCII letter test, the `[A-Za-z]` class. -/
def asciiLetter (c : Char) : Bool :=
  ('A' ≤ c && c ≤ 'Z') || ('a' ≤ c && c ≤ 'z')

/-- `dateStr.replace(/^[A-Za-z]+,\s*/, '')`: strip a leading (maximal) letter
run immediately followed by a comma, together with the whitespace run
after the comma; otherwise return the string unchanged. -/
def stripWeekday (s : List Char) : List Char :=
  let letters := s.takeWhile asciiLetter
  if letters.length = 0 then s
  else
    match s.drop letters.length with
    | ',' :: rest => rest.dropWhile jsWS
    | _ => s

/-- `parseOutlookDate` (src/js/queue.js lines 184–204), over the abstract
host date primitive `dp`. -/
def parseOutlookDate (dp : List Char → Option Int) (s : List Char) : Option Int :=
  if s = [] then none
  else
    match dp s with
    | some d => some d
    | none =>
      match dp (stripWeekday s) with
      | some d => some d
      | none => none

/-- `parseFlexibleDate` (src/js/queue.js lines 158–176): direct parse, then
weekday-stripped parse, then the Outlook-style fallback. -/
def parseFlexibleDate (dp : List Char → Option Int) (s : List Char) : Option Int :=
  if s = [] then none
  else
    match dp s with
    | some d => some d
    | none =>
      match dp (stripWeekday s) with
      | some d => some d
      | none => parseOutlookDate dp s

/-- Modelled from the spec: the two-step date parser of §4.1 steps 1–2 (direct
parse, then weekday-stripped retry), to which claim C9 asserts
`parseFlexibleDate` is extensionally equal.  This definition follows the
spec's words, for comparison with the source-derived `parseFlexibleDate`. -/
def flexibleDateSpec (dp : List Char → Option Int) (s : List Char) : Option Int :=
  if s = [] then none
  else
    match dp s with
    | some d => some d
    | none => dp (stripWeekday s)

/-! ## Boundary Detector — `identifyMessageBoundaries` (src/unnamed/part_000 lines 86–125) -/

/-- Pattern 1 test on a trimmed line: `/^From:\s*\S/i`. -/
def fromTest (t : List Char) : Bool :=
  startsWithCI "from:".toList t && !((t.drop 5).dropWhile jsWS).isEmpty

/-- The look-ahead test of pattern 1: `/^(To|Date|Sent|Cc|Subject):/i` on a
trimmed line. -/
def lookaheadTest (t : List Char) : Bool :=
  startsWithCI "to:".toList t || startsWithCI "date:".toList t ||
  startsWithCI "sent:".toList t || startsWithCI "cc:".toList t ||
  startsWithCI "subject:".toList t

/-- Tail of pattern 2 after `wrote`: the literal `wrote:` followed by `\s*$`. -/
def wroteEnd (w : List Char) : Bool :=
  startsWithCI "wrote:".toList w && (w.drop 6).all jsWS

/-- Tail of pattern 2 after `On`: a decomposition into `\s+`, `.+`, `\s+`,
`wrote:`, `\s*$`.  A regex with no capture-dependent behaviour matches
exactly when some decomposition exists, so the bounded search over split
points is the regex's semantics. -/
def wroteTail (u : List Char) : Bool :=
  (List.range (u.length + 1)).any fun i =>
    decide (0 < i) && (u.take i).all jsWS &&
    ((List.range ((u.drop i).length + 1)).any fun j =>
      decide (0 < j) && ((u.drop i).take j).all dotChar &&
      ((List.range (((u.drop i).drop j).length + 1)).any fun k =>
        decide (0 < k) && (((u.drop i).drop j).take k).all jsWS &&
        wroteEnd (((u.drop i).drop j).drop k)))

/-- Pattern 2 test on a trimmed line: `/^On\s+.+\s+wrote:\s*$/i`. -/
def matchOnWrote (t : List Char) : Bool :=
  startsWithCI "on".toList t && wroteTail (t.drop 2)

/-- Pattern 3 test on a trimmed line: `/^[_-]{20,}$/`. -/
def sepTest (t : List Char) : Bool :=
  20 ≤ t.length && t.all (fun c => c = '_' || c = '-')

/-- The line scan of `identifyMessageBoundaries`: `cp` is the running
character position and `noneYet` records whether the boundary list built
so far is still empty (the `boundaries.length === 0` escape hatch of
pattern 1). -/
def boundariesAux (cp : Nat) (noneYet : Bool) : List (List Char) → List Nat
  | [] => []
  | l :: rest =>
    let t := jsTrim l
    let p1 := fromTest t &&
      ((rest.take 5).any (fun nl => lookaheadTest (jsTrim nl)) || noneYet)
    let p2 := matchOnWrote t
    let p3 := sepTest t
    let here := (if p1 then [cp] else []) ++ (if p2 then [cp] else []) ++
      (if p3 then [cp + l.length + 1] else [])
    here ++ boundariesAux (cp + l.length + 1) (noneYet && here.isEmpty) rest

/-- `identifyMessageBoundaries` (src/unnamed/part_000 lines 86–125). -/
def identifyMessageBoundaries (body : List Char) : List Nat :=
  boundariesAux 0 true (splitNl body)

/-! ## Section Extractor — `extractEmailFromSection` (src/js/emailChain.js lines 605–708) -/

/-- The six header keywords recognised by the extractor. -/
inductive HType where
  | hFrom | hTo | hCc | hDate | hSent | hSubject
  deriving DecidableEq

/-- The record built by the extractor (and returned, stamped with
`sourceFile`, by the coordinator). -/
structure EmailRec where
  from_ : List Char := []
  to_ : List Char := []
  cc : List Char := []
  date : Option Int := none
  subject : List Char := []
  body : List Char := []
  attachments : List (List Char) := []
  sourceFile : List Char := []
  deriving DecidableEq

/-- Extractor loop state: the record under construction and the
`foundHeaders` flag. -/
structure HSt where
  em : EmailRec
  found : Bool
  deriving DecidableEq

/-- The value capture of `/^(From|To|Cc|Date|Sent|Subject):\s*(.*)/i` once a
keyword of length `n` (with its colon) has matched: skip `\s*` greedily,
then `(.*)` takes the remaining `dotChar` run. -/
def hdrVal (n : Nat) (t : List Char) : List Char :=
  ((t.drop n).dropWhile jsWS).takeWhile dotChar

/-- `trimmedLine.match(/^(From|To|Cc|Date|Sent|Subject):\s*(.*)/i)`:
the matched keyword (lower-cased, as `match[1].toLowerCase()`) and the raw
captured value `match[2]`.  The alternation is tried in source order; the
keywords are pairwise prefix-free so the order is immaterial. -/
def headerMatch (t : List Char) : Option (HType × List Char) :=
  if startsWithCI "from:".toList t then some (.hFrom, hdrVal 5 t)
  else if startsWithCI "to:".toList t then some (.hTo, hdrVal 3 t)
  else if startsWithCI "cc:".toList t then some (.hCc, hdrVal 3 t)
  else if startsWithCI "date:".toList t then some (.hDate, hdrVal 5 t)
  else if startsWithCI "sent:".toList t then some (.hSent, hdrVal 5 t)
  else if startsWithCI "subject:".toList t then some (.hSubject, hdrVal 8 t)
  else none

/-- `/^(From|To|Cc|Date|Sent|Subject):/i.test(line)`: since `\s*(.*)` always
matches, this is exactly the success of `headerMatch`. -/
def headerStartTest (t : List Char) : Bool :=
  (headerMatch t).isSome

/-- Store a finished header value: clean it, then route it by header name;
a `From:` header sets `foundHeaders` (emailChain.js lines 656–675). -/
def storeH (dp : List Char → Option Int) (ht : HType) (v : List Char) (st : HSt) : HSt :=
  let v' := cleanEmailText v
  match ht with
  | .hFrom => ⟨{st.em with from_ := v'}, true⟩
  | .hTo => ⟨{st.em with to_ := v'}, st.found⟩
  | .hCc => ⟨{st.em with cc := v'}, st.found⟩
  | .hDate => ⟨{st.em with date := parseFlexibleDate dp v'}, st.found⟩
  | .hSent => ⟨{st.em with date := parseFlexibleDate dp v'}, st.found⟩
  | .hSubject => ⟨{st.em with subject := v'}, st.found⟩

/-- The header-parsing loop of `extractEmailFromSection` (emailChain.js lines
627–695).  The first argument is the loop mode: `none` is the ordinary
scan; `some (ht, acc)` means the continuation inner loop of a short header
value is running (header `ht`, value accumulated so far `acc`).  In the
source the inner loop breaks on a blank or header line and steps back so
that the outer loop re-processes that line; here that re-processing is
inlined in the `some` branches.  Returns the final state and the lines
remaining for the body. -/
def hGo (dp : List Char → Option Int) :
    Option (HType × List Char) → HSt → List (List Char) → HSt × List (List Char)
  | none, st, [] => (st, [])
  | some (ht, acc), st, [] => (storeH dp ht acc st, [])
  | none, st, l :: rest =>
    let t := jsTrim l
    match headerMatch t with
    | some (ht, raw0) =>
      let raw := jsTrim raw0
      if raw.length < 3 then hGo dp (some (ht, raw)) st rest
      else hGo dp none (storeH dp ht raw st) rest
    | none =>
      if st.found && t.isEmpty then (st, rest)
      else if st.found then
        if st.em.subject.isEmpty && !t.isEmpty && t.length < 200 then
          hGo dp none ⟨{st.em with subject := t}, st.found⟩ rest
        else (st, l :: rest)
      else hGo dp none st rest
  | some (ht, acc), st, l :: rest =>
    let nl := jsTrim l
    if nl.isEmpty then
      let st' := storeH dp ht acc st
      if st'.found then (st', rest) else hGo dp none st' rest
    else if headerStartTest nl then
      let st' := storeH dp ht acc st
      match headerMatch nl with
      | some (ht2, raw0) =>
        let raw := jsTrim raw0
        if raw.length < 3 then hGo dp (some (ht2, raw)) st' rest
        else hGo dp none (storeH dp ht2 raw st') rest
      | none =>
        if st'.found && nl.isEmpty then (st', rest)
        else if st'.found then
          if st'.em.subject.isEmpty && !nl.isEmpty && nl.length < 200 then
            hGo dp none ⟨{st'.em with subject := nl}, st'.found⟩ rest
          else (st', l :: rest)
        else hGo dp none st' rest
    else
      hGo dp (some (ht, acc ++ (if acc.isEmpty then [] else [' ']) ++ nl)) st rest

/-- The whole field computation of `extractEmailFromSection` up to (but not
including) the final validation: split into lines, skip a leading
`On … wrote:` line (only when `lines[0]` is truthy, i.e. non-empty), run
the header loop, then join and trim the remaining lines as the body. -/
def computeFields (dp : List Char → Option Int) (section_ : List Char) : EmailRec :=
  let lines := splitNl section_
  let lines' :=
    match lines with
    | [] => []
    | l0 :: rest =>
      if !l0.isEmpty && matchOnWrote (jsTrim l0) then rest else l0 :: rest
  let (st, bodyLines) := hGo dp none ⟨{}, false⟩ lines'
  if bodyLines.isEmpty then st.em
  else {st.em with body := jsTrim (joinNl bodyLines)}

/-- The validation of lines 702–707: the record is returned only when
`(email.from || email.to) && (email.date || email.subject)` is truthy. -/
def validB (e : EmailRec) : Bool :=
  (!e.from_.isEmpty || !e.to_.isEmpty) && (e.date.isSome || !e.subject.isEmpty)

/-- `extractEmailFromSection` (src/js/emailChain.js lines 605–708). -/
def extractEmailFromSection (dp : List Char → Option Int) (section_ : List Char) :
    Option EmailRec :=
  if validB (computeFields dp section_) then some (computeFields dp section_) else none

/-! ## Chain Coordinator — `parseForwardedChain` (src/js/chainParser.js) -/

/-- One iteration of the coordinator's loop: slice `[s, e)`, trim, skip empty
sections, extract, stamp `sourceFile`. -/
def sectionRecords (dp : List Char → Option Int) (body sf : List Char) (s e : Nat) :
    List EmailRec :=
  let sec := jsTrim (jsSubstring body s e)
  if sec.isEmpty then []
  else
    match extractEmailFromSection dp sec with
    | some em => [{em with sourceFile := sf}]
    | none => []

/-- The coordinator's loop over consecutive boundary pairs, the last section
ending at `body.length`. -/
def collectSections (dp : List Char → Option Int) (body sf : List Char) :
    List Nat → List EmailRec
  | [] => []
  | [b] => sectionRecords dp body sf b body.length
  | b :: b2 :: rest =>
    sectionRecords dp body sf b b2 ++ collectSections dp body sf (b2 :: rest)

/-- `parseForwardedChain` (src/js/chainParser.js lines 17–51): empty body or
no boundaries means "not a chain"; at the end the collected records are
returned only when there are more than one of them. -/
def parseForwardedChain (dp : List Char → Option Int) (body sf : List Char) :
    List EmailRec :=
  if body = [] then []
  else
    let boundaries := identifyMessageBoundaries body
    if boundaries = [] then []
    else
      let emails := collectSections dp body sf boundaries
      if 1 < emails.length then emails else []

/-! ## Concrete inputs used by claim witnesses and counterexamples -/

/-- A host date primitive that parses nothing; instantiating `dp` with it
exercises the text pipeline alone. -/
def dpNone : List Char → Option Int := fun _ => none

/-- The single-header-block body of claim C1. -/
def c1body : List Char := "From: a@x.com\nDate: Jan 1, 2024\nHello".toList

/-- The date string of the single header block of `c1body`, as it reaches the
date parser (already cleaned). -/
def c1jan : List Char := "Jan 1, 2024".toList

/-- The one record the extractor produces from `c1body`'s single section. -/
def c1rec (dp : List Char → Option Int) : EmailRec :=
  { from_ := "a@x.com".toList, date := parseFlexibleDate dp c1jan,
    subject := "Hello".toList }

/-- The two-message Outlook-style body of spec §8 / claim C2 (32-underscore
separator line between the two header blocks). -/
def c2body : List Char :=
  ("From: Alice <a@x.com>\n" ++
   "Sent: Monday, January 6, 2025 9:26 AM\n" ++
   "To: Bob <b@x.com>\n" ++
   "Subject: Hi\n" ++
   "\n" ++
   "Hello Bob.\n" ++
   "________________________________\n" ++
   "From: Bob <b@x.com>\n" ++
   "Sent: Tuesday, January 7, 2025 10:00 AM\n" ++
   "To: Alice <a@x.com>\n" ++
   "Subject: Re: Hi\n" ++
   "\n" ++
   "Hi Alice.").toList

/-- The first section `c2body.substring(0, 135).trim()` the coordinator
hands to the extractor (the separator line is its last line). -/
def c2sec1 : List Char :=
  ("From: Alice <a@x.com>\n" ++
   "Sent: Monday, January 6, 2025 9:26 AM\n" ++
   "To: Bob <b@x.com>\n" ++
   "Subject: Hi\n" ++
   "\n" ++
   "Hello Bob.\n" ++
   "________________________________").toList

/-- The second section `c2body.substring(135, 241).trim()`. -/
def c2sec2 : List Char :=
  ("From: Bob <b@x.com>\n" ++
   "Sent: Tuesday, January 7, 2025 10:00 AM\n" ++
   "To: Alice <a@x.com>\n" ++
   "Subject: Re: Hi\n" ++
   "\n" ++
   "Hi Alice.").toList

/-- The cleaned `Sent:` value of the first message of `c2body`. -/
def c2mon : List Char := "Monday, January 6, 2025 9:26 AM".toList

/-- The cleaned `Sent:` value of the second message of `c2body`. -/
def c2tue : List Char := "Tuesday, January 7, 2025 10:00 AM".toList

/-- The 32-underscore separator line of `c2body`. -/
def c2sep : List Char := List.replicate 32 '_'

/-- The first record extracted from `c2body` (note the separator line at the
end of its body). -/
def c2rec1 (dp : List Char → Option Int) (sf : List Char) : EmailRec :=
  { from_ := "Alice <a@x.com>".toList, to_ := "Bob <b@x.com>".toList,
    date := parseFlexibleDate dp c2mon, subject := "Hi".toList,
    body := "Hello Bob.\n".toList ++ c2sep, sourceFile := sf }

/-- The second record extracted from `c2body`. -/
def c2rec2 (dp : List Char → Option Int) (sf : List Char) : EmailRec :=
  { from_ := "Bob <b@x.com>".toList, to_ := "Alice <a@x.com>".toList,
    date := parseFlexibleDate dp c2tue, subject := "Re: Hi".toList,
    body := "Hi Alice.".toList, sourceFile := sf }

/-- How many of the three boundary pattern families match a given trimmed
line. -/
def patternCount (t : List Char) : Nat :=
  (if fromTest t then 1 else 0) + (if matchOnWrote t then 1 else 0) +
  (if sepTest t then 1 else 0)

/-- Total number of characters the boundary scan attributes to a list of
lines (each line plus one for its newline). -/
def linesTotal (ls : List (List Char)) : Nat :=
  (ls.map (fun l => l.length + 1)).sum

/-- The validity invariant of §3 as a proposition:
`(from non-empty OR to non-empty) AND (date non-null OR subject non-empty)`. -/
def goodRec (e : EmailRec) : Prop :=
  (e.from_ ≠ [] ∨ e.to_ ≠ []) ∧ (e.date ≠ none ∨ e.subject ≠ [])

/-- Claim C7's section shape: a `From:` header with empty value, one
continuation line, then a `Subject:` header, a blank line and a body. -/
def c7secA (n1 : List Char) : List Char :=
  "From:".toList ++ ('\n' :: (n1 ++ ('\n' :: "Subject: Hello\n\nBody.".toList)))

/-- Claim C7's section shape with two continuation lines. -/
def c7secB (n1 n2 : List Char) : List Char :=
  "From:".toList ++
    ('\n' :: (n1 ++ ('\n' :: (n2 ++ ('\n' :: "Subject: Hello\n\nBody.".toList)))))

/-- No-two-adjacent-whitespace-characters invariant (output shape of the
whitespace collapser). -/
def okWS (z : List Char) : Prop :=
  List.Chain' (fun a b => ¬(jsWS a = true ∧ jsWS b = true)) z

/-- Every whitespace character is a plain space (output shape of the
whitespace collapser). -/
def spacesOnly (z : List Char) : Prop :=
  ∀ c ∈ z, jsWS c = true → c = ' '

/-- The first character, when present, is not whitespace. -/
def headOK (z : List Char) : Prop :=
  ∀ c ∈ z.head?, jsWS c = false

/-- The last character, when present, is not whitespace. -/
def lastOK (z : List Char) : Prop :=
  ∀ c ∈ z.getLast?, jsWS c = false

/-! ## Claim C9 -/

/-- Claim C9: `parseFlexibleDate` is extensionally equal to the two-step
parser (direct parse, then weekday-stripped retry); the Outlook-style
fallback pass never changes the result, and the parser returns null
exactly when the first two steps both fail. -/
theorem parseFlexibleDate_eq_twoStep (dp : List Char → Option Int) (s : List Char) :
    parseFlexibleDate dp s = flexibleDateSpec dp s := by
  unfold parseFlexibleDate flexibleDateSpec parseOutlookDate
  by_cases hs : s = []
  · simp [hs]
  · simp only [if_neg hs]
    cases h1 : dp s <;> cases h2 : dp (stripWeekday s) <;> simp [h1, h2]

/-! ## Claim C1 -/

/-- Claim C1: for every message body and source label, `parseForwardedChain`
never returns exactly one record (its result length is 0 or at least 2);
in particular the body `"From: a@x.com\nDate: Jan 1, 2024\nHello"`, which
contains exactly one extractable header block, yields the empty list for
every host date parser. -/
theorem parseForwardedChain_ne_one (dp : List Char → Option Int) (body sf : List Char) :
    (parseForwardedChain dp body sf).length ≠ 1 ∧
    parseForwardedChain dp c1body sf = [] := by
  constructor
  · unfold parseForwardedChain
    split
    · simp
    · dsimp only
      split
      · simp
      · split
        · next h => omega
        · simp
  · have hv : validB (computeFields dp c1body) = true := by
      have h0 : validB (computeFields dp c1body) =
          ((parseFlexibleDate dp c1jan).isSome || true) := rfl
      rw [h0]
      exact Bool.or_true _
    have hx : extractEmailFromSection dp c1body = some (c1rec dp) := by
      unfold extractEmailFromSection
      rw [hv]
      rfl
    have hsec : jsTrim (jsSubstring c1body 0 c1body.length) = c1body := rfl
    have hc : collectSections dp c1body sf [0] = [{c1rec dp with sourceFile := sf}] := by
      show sectionRecords dp c1body sf 0 c1body.length = _
      simp only [sectionRecords]
      rw [hsec, hx]
      rfl
    calc parseForwardedChain dp c1body sf
        = if 1 < (collectSections dp c1body sf [0]).length then
            collectSections dp c1body sf [0] else [] := rfl
      _ = [] := by rw [hc]; simp

/-! ## Claim C10 -/

/-- Character-list form of the pattern-1 keyword. -/
theorem fromKeyChars : "from:".toList = 'f' :: 'r' :: 'o' :: 'm' :: ':' :: [] := rfl

/-- Character-list form of the pattern-2 keyword. -/
theorem onKeyChars : "on".toList = 'o' :: 'n' :: [] := rfl

/-- A line matching pattern 1 starts with `f` or `F`. -/
theorem fromTest_cons (c : Char) (cs : List Char) (h : fromTest (c :: cs) = true) :
    lowerA c = 'f' := by
  simp only [fromTest, fromKeyChars, startsWithCI, Bool.and_eq_true,
    decide_eq_true_eq] at h
  exact h.1.1

/-- Pattern 1 never matches the empty line. -/
theorem fromTest_nil : fromTest [] = false := by
  simp [fromTest, fromKeyChars, startsWithCI]

/-- A line matching pattern 2 starts with `o` or `O`. -/
theorem onWrote_cons (c : Char) (cs : List Char) (h : matchOnWrote (c :: cs) = true) :
    lowerA c = 'o' := by
  simp only [matchOnWrote, onKeyChars, startsWithCI, Bool.and_eq_true,
    decide_eq_true_eq] at h
  exact h.1.1

/-- Pattern 2 never matches the empty line. -/
theorem onWrote_nil : matchOnWrote [] = false := by
  simp [matchOnWrote, onKeyChars, startsWithCI]

/-- A line matching pattern 3 starts with an underscore or a hyphen. -/
theorem sepTest_cons (c : Char) (cs : List Char) (h : sepTest (c :: cs) = true) :
    c = '_' ∨ c = '-' := by
  simp only [sepTest, Bool.and_eq_true, List.all_cons, Bool.or_eq_true,
    decide_eq_true_eq] at h
  exact h.2.1

/-- Pattern 3 never matches the empty line. -/
theorem sepTest_nil : sepTest [] = false := by
  simp [sepTest]

/-- At most one pattern family fires on any list of characters. -/
theorem patternCount_le_one (t : List Char) : patternCount t ≤ 1 := by
  cases t with
  | nil => simp [patternCount, fromTest_nil, onWrote_nil, sepTest_nil]
  | cons c cs =>
    cases hf : fromTest (c :: cs) <;> cases ho : matchOnWrote (c :: cs) <;>
      cases hs : sepTest (c :: cs)
    · simp [patternCount, hf, ho, hs]
    · simp [patternCount, hf, ho, hs]
    · simp [patternCount, hf, ho, hs]
    · exfalso
      have h1 := onWrote_cons c cs ho
      rcases sepTest_cons c cs hs with h | h <;> rw [h] at h1 <;> exact absurd h1 (by decide)
    · simp [patternCount, hf, ho, hs]
    · exfalso
      have h1 := fromTest_cons c cs hf
      rcases sepTest_cons c cs hs with h | h <;> rw [h] at h1 <;> exact absurd h1 (by decide)
    · exfalso
      have h1 := fromTest_cons c cs hf
      have h2 := onWrote_cons c cs ho
      rw [h1] at h2
      exact absurd h2 (by decide)
    · exfalso
      have h1 := fromTest_cons c cs hf
      have h2 := onWrote_cons c cs ho
      rw [h1] at h2
      exact absurd h2 (by decide)

/-- The offsets contributed by a single line number at most one. -/
theorem hereLen (cp L : Nat) (t : List Char) (x : Bool) :
    ((if fromTest t && x then [cp] else []) ++ (if matchOnWrote t then [cp] else []) ++
      (if sepTest t then [cp + L] else [])).length ≤ 1 := by
  cases ht : t with
  | nil => simp [fromTest_nil, onWrote_nil, sepTest_nil]
  | cons c cs =>
    cases hf : fromTest (c :: cs) <;> cases ho : matchOnWrote (c :: cs) <;>
      cases hs : sepTest (c :: cs)
    · simp [hf, ho, hs]
    · simp [hf, ho, hs]
    · simp [hf, ho, hs]
    · exfalso
      have h1 := onWrote_cons c cs ho
      rcases sepTest_cons c cs hs with h | h <;> rw [h] at h1 <;> exact absurd h1 (by decide)
    · cases x <;> simp [hf, ho, hs]
    · exfalso
      have h1 := fromTest_cons c cs hf
      rcases sepTest_cons c cs hs with h | h <;> rw [h] at h1 <;> exact absurd h1 (by decide)
    · exfalso
      have h1 := fromTest_cons c cs hf
      have h2 := onWrote_cons c cs ho
      rw [h1] at h2
      exact absurd h2 (by decide)
    · exfalso
      have h1 := fromTest_cons c cs hf
      have h2 := onWrote_cons c cs ho
      rw [h1] at h2
      exact absurd h2 (by decide)

/-- The boundary scan appends at most one offset per line. -/
theorem boundariesAux_length (cp : Nat) (ny : Bool) (ls : List (List Char)) :
    (boundariesAux cp ny ls).length ≤ ls.length := by
  induction ls generalizing cp ny with
  | nil => simp [boundariesAux]
  | cons l rest ih =>
    simp only [boundariesAux]
    rw [List.length_append, List.length_cons]
    have h1 := hereLen cp (l.length + 1) (jsTrim l)
      ((rest.take 5).any (fun nl => lookaheadTest (jsTrim nl)) || ny)
    exact le_trans (Nat.add_le_add h1 (ih _ _)) (le_of_eq (Nat.add_comm 1 rest.length))

/-- Claim C10: the three boundary pattern families are mutually exclusive on
every (trimmed) line — at most one can match — so each scanned line
appends at most one offset and the boundary list never has more elements
than the body has lines. -/
theorem boundaryPatterns_exclusive :
    (∀ l : List Char, patternCount (jsTrim l) ≤ 1) ∧
    (∀ body : List Char,
      (identifyMessageBoundaries body).length ≤ (splitNl body).length) := by
  constructor
  · intro l
    exact patternCount_le_one (jsTrim l)
  · intro body
    exact boundariesAux_length 0 true (splitNl body)

/-! ## Claim C4 -/

/-- When no line of the scan matches any pattern family, no offset is ever
appended. -/
theorem boundariesAux_nil_of_no_match (cp : Nat) (ny : Bool) (ls : List (List Char))
    (h : ∀ l ∈ ls, fromTest (jsTrim l) = false ∧ matchOnWrote (jsTrim l) = false ∧
      sepTest (jsTrim l) = false) :
    boundariesAux cp ny ls = [] := by
  induction ls generalizing cp ny with
  | nil => simp [boundariesAux]
  | cons l rest ih =>
    have hl := h l (List.mem_cons_self l rest)
    simp only [boundariesAux, hl.1, hl.2.1, hl.2.2, Bool.false_and, if_false,
      List.nil_append, List.append_nil]
    exact ih _ _ (fun x hx => h x (List.mem_cons_of_mem l hx))

/-- Claim C4: a body none of whose lines matches the From-header pattern, the
anchored `On … wrote:` pattern or the 20-plus underscore/hyphen separator
pattern produces no boundaries, and `parseForwardedChain` treats it as
"not a chain" and returns the empty list, for every host date parser and
source label. -/
theorem noPatterns_noChain (dp : List Char → Option Int) (body sf : List Char)
    (h : ∀ l ∈ splitNl body, fromTest (jsTrim l) = false ∧
      matchOnWrote (jsTrim l) = false ∧ sepTest (jsTrim l) = false) :
    identifyMessageBoundaries body = [] ∧ parseForwardedChain dp body sf = [] := by
  have hb : identifyMessageBoundaries body = [] :=
    boundariesAux_nil_of_no_match 0 true (splitNl body) h
  refine ⟨hb, ?_⟩
  unfold parseForwardedChain
  split
  · rfl
  · simp [hb]

/-- Witness for claim C4 at the concrete body `"hello world"`. -/
theorem noPatterns_noChain_witness :
    identifyMessageBoundaries "hello world".toList = [] ∧
    parseForwardedChain dpNone "hello world".toList "a.msg".toList = [] :=
  noPatterns_noChain dpNone "hello world".toList "a.msg".toList (by decide)

/-! ## Claim C5 -/

/-- `splitNl` never returns the empty list. -/
theorem splitNl_ne_nil (s : List Char) : splitNl s ≠ [] := by
  cases s with
  | nil => simp [splitNl]
  | cons c cs =>
    simp only [splitNl]
    split
    · simp
    · cases h : splitNl cs <;> simp

/-- Members of `getLast?` are members of the list. -/
theorem mem_of_mem_getLastQ {x : Nat} {l : List Nat} (hx : x ∈ l.getLast?) : x ∈ l := by
  rcases List.mem_getLast?_eq_getLast hx with ⟨h, rfl⟩
  exact List.getLast_mem h

/-- The scan's total character count over the split lines is one more than
the body's length (each line is charged its newline, including the absent
one of the last line — the source of the possible one-past-the-end
offset). -/
theorem linesTotal_splitNl (s : List Char) : linesTotal (splitNl s) = s.length + 1 := by
  induction s with
  | nil => simp [splitNl, linesTotal]
  | cons c cs ih =>
    simp only [splitNl]
    split
    · simp only [linesTotal, List.map_cons, List.sum_cons, List.length_cons,
        List.length_nil] at ih ⊢
      omega
    · cases h : splitNl cs with
      | nil => exact absurd h (splitNl_ne_nil cs)
      | cons l ls =>
        rw [h] at ih
        simp only [linesTotal, List.map_cons, List.sum_cons, List.length_cons] at ih ⊢
        omega

/-- Every offset the scan emits lies between the running position and the
running position plus the remaining character count. -/
theorem boundariesAux_mem_bounds (cp : Nat) (ny : Bool) (ls : List (List Char)) :
    ∀ b ∈ boundariesAux cp ny ls, cp ≤ b ∧ b ≤ cp + linesTotal ls := by
  induction ls generalizing cp ny with
  | nil => simp [boundariesAux]
  | cons l rest ih =>
    intro b hb
    have htot : linesTotal (l :: rest) = l.length + 1 + linesTotal rest := by
      simp [linesTotal]
    simp only [boundariesAux, List.mem_append] at hb
    rcases hb with ((h2 | h2) | h2) | h2
    · split at h2 <;> simp_all <;> omega
    · split at h2 <;> simp_all <;> omega
    · split at h2 <;> simp_all <;> omega
    · have := ih (cp + l.length + 1) _ b h2
      omega

/-- The scan's output is non-decreasing. -/
theorem boundariesAux_chain (cp : Nat) (ny : Bool) (ls : List (List Char)) :
    List.Chain' (· ≤ ·) (boundariesAux cp ny ls) := by
  induction ls generalizing cp ny with
  | nil => simp [boundariesAux]
  | cons l rest ih =>
    simp only [boundariesAux]
    rw [List.chain'_append]
    refine ⟨?_, ih _ _, ?_⟩
    · split <;> split <;> split <;> simp <;> omega
    · intro x hx y hy
      have hx' := mem_of_mem_getLastQ hx
      have hxv : x = cp ∨ x = cp + l.length + 1 := by
        rcases List.mem_append.1 hx' with h1 | h1
        · rcases List.mem_append.1 h1 with h2 | h2 <;> (split at h2 <;> simp_all)
        · split at h1 <;> simp_all
      have hyv := (boundariesAux_mem_bounds (cp + l.length + 1) _ rest y
        (List.mem_of_mem_head? hy)).1
      rcases hxv with h | h <;> subst h <;> omega

/-- Counterexample to claim C5 as stated: a body that is a bare 20-underscore
separator line (no trailing newline) has length 20, yet the detector
returns the offset 21, one past the end of the body. -/
theorem boundaries_cex :
    identifyMessageBoundaries (List.replicate 20 '_') = [21] ∧
    20 < 21 ∧ (List.replicate 20 '_' : List Char).length = 20 := by
  refine ⟨by decide, by decide, by decide⟩

/-- Claim C5, amended: `identifyMessageBoundaries` returns a non-decreasing
sequence of non-negative offsets, each at most the body's length plus one
(a separator match on a final line with no trailing newline places its
offset one past the end; all other offsets are at most the length). -/
theorem boundaries_sorted_bounded (body : List Char) :
    List.Chain' (· ≤ ·) (identifyMessageBoundaries body) ∧
    ∀ b ∈ identifyMessageBoundaries body, b ≤ body.length + 1 := by
  constructor
  · exact boundariesAux_chain 0 true (splitNl body)
  · intro b hb
    have := boundariesAux_mem_bounds 0 true (splitNl body) b hb
    rw [linesTotal_splitNl] at this
    omega

/-- Witness for claim C5 (amended) at the concrete 20-underscore body. -/
theorem boundaries_sorted_bounded_witness :
    21 ∈ identifyMessageBoundaries (List.replicate 20 '_') ∧
    21 ≤ (List.replicate 20 '_' : List Char).length + 1 :=
  ⟨by decide, (boundaries_sorted_bounded (List.replicate 20 '_')).2 21 (by decide)⟩

/-! ## Claim C3 -/

/-- The Boolean validation of lines 702–707 decides exactly the §3
invariant. -/
theorem validB_iff_goodRec (e : EmailRec) : validB e = true ↔ goodRec e := by
  simp [validB, goodRec, Bool.and_eq_true, Bool.or_eq_true, List.isEmpty_iff,
    Option.isSome_iff_ne_none]

/-- Every record the extractor returns satisfies the invariant. -/
theorem extract_some_goodRec (dp : List Char → Option Int) (s : List Char) (e : EmailRec)
    (h : extractEmailFromSection dp s = some e) : goodRec e := by
  unfold extractEmailFromSection at h
  split at h
  · next hv =>
    rw [Option.some_inj] at h
    subst h
    exact (validB_iff_goodRec _).1 hv
  · exact absurd h (by simp)

/-- Stamping the source file preserves the invariant fields. -/
theorem goodRec_sourceFile (e : EmailRec) (sf : List Char) (h : goodRec e) :
    goodRec {e with sourceFile := sf} := h

/-- Every record the coordinator's collection loop keeps satisfies the
invariant. -/
theorem mem_collectSections_goodRec (dp : List Char → Option Int) (body sf : List Char) :
    ∀ bs e, e ∈ collectSections dp body sf bs → goodRec e
  | [], e, h => by simp [collectSections] at h
  | [b], e, h => by
    simp only [collectSections, sectionRecords] at h
    split at h
    · simp at h
    · split at h
      · next em hm =>
        rw [List.mem_singleton] at h
        subst h
        exact goodRec_sourceFile em sf (extract_some_goodRec dp _ em hm)
      · simp at h
  | b :: b2 :: rest, e, h => by
    rw [collectSections, List.mem_append] at h
    rcases h with h | h
    · simp only [sectionRecords] at h
      split at h
      · simp at h
      · split at h
        · next em hm =>
          rw [List.mem_singleton] at h
          subst h
          exact goodRec_sourceFile em sf (extract_some_goodRec dp _ em hm)
        · simp at h
    · exact mem_collectSections_goodRec dp body sf (b2 :: rest) e h

/-- Claim C3: `extractEmailFromSection` returns a record exactly when the
parsed fields satisfy `(from non-empty OR to non-empty) AND (date
non-null OR subject non-empty)`; otherwise it returns `none` (the
embedding is total, so no exception is possible); hence every record it
returns — and every record `parseForwardedChain` returns — satisfies the
invariant. -/
theorem extract_validity_invariant (dp : List Char → Option Int) :
    (∀ s, (extractEmailFromSection dp s).isSome ↔ goodRec (computeFields dp s)) ∧
    (∀ s e, extractEmailFromSection dp s = some e → goodRec e) ∧
    (∀ body sf e, e ∈ parseForwardedChain dp body sf → goodRec e) := by
  refine ⟨?_, ?_, ?_⟩
  · intro s
    unfold extractEmailFromSection
    split
    · next hv => simpa using (validB_iff_goodRec _).1 hv
    · next hv =>
      simp only [Option.isSome_none, Bool.false_eq_true, false_iff]
      intro hc
      rw [← validB_iff_goodRec] at hc
      simp [hc] at hv
  · exact fun s e h => extract_some_goodRec dp s e h
  · intro body sf e h
    unfold parseForwardedChain at h
    split at h
    · simp at h
    · dsimp only at h
      split at h
      · simp at h
      · split at h
        · exact mem_collectSections_goodRec dp body sf _ e h
        · simp at h

/-- Witness for claim C3: the invariant holds of the record extracted from a
concrete single-header section. -/
theorem extract_validity_invariant_witness :
    goodRec { from_ := "a@x.com".toList, subject := "Hi".toList } :=
  (extract_validity_invariant dpNone).2.1 "From: a@x.com\nSubject: Hi".toList
    { from_ := "a@x.com".toList, subject := "Hi".toList } (by decide)

/-! ## Claim C2 -/

set_option maxRecDepth 40000 in
/-- Counterexample to claim C2 as stated: on the spec §8 two-message body the
bodies are not `"Hello Bob."` and `"Hi Alice."` — the 32-underscore
separator line is part of the first returned body (the separator boundary
points after the separator line, so the separator is absorbed by the
preceding section, whose trailing text survives `trim()`). -/
theorem chain_c2_cex :
    (parseForwardedChain dpNone c2body "a.msg".toList).map (fun e => e.body) ≠
      ["Hello Bob.".toList, "Hi Alice.".toList] ∧
    (parseForwardedChain dpNone c2body "a.msg".toList).map (fun e => e.body) =
      ["Hello Bob.\n".toList ++ c2sep, "Hi Alice.".toList] := by
  refine ⟨by decide, by decide⟩

set_option maxRecDepth 40000 in
/-- Claim C2, amended: on the spec §8 body the coordinator returns exactly 2
records, in text order, with `from`, `date`, `to` and `subject` populated
as shown; the second body is `"Hi Alice."`, but the underscore separator
line is not consumed — it remains as the final line of the first record's
body (`"Hello Bob.\n" ++ 32 underscores`). -/
theorem chain_c2_two_records (dp : List Char → Option Int) (sf : List Char) :
    parseForwardedChain dp c2body sf = [c2rec1 dp sf, c2rec2 dp sf] := by
  have hv1 : validB (computeFields dp c2sec1) = true := by
    have h0 : validB (computeFields dp c2sec1) =
        ((parseFlexibleDate dp c2mon).isSome || true) := rfl
    rw [h0]
    exact Bool.or_true _
  have hx1 : extractEmailFromSection dp c2sec1 = some (c2rec1 dp []) := by
    unfold extractEmailFromSection
    rw [hv1]
    rfl
  have hv2 : validB (computeFields dp c2sec2) = true := by
    have h0 : validB (computeFields dp c2sec2) =
        ((parseFlexibleDate dp c2tue).isSome || true) := rfl
    rw [h0]
    exact Bool.or_true _
  have hx2 : extractEmailFromSection dp c2sec2 = some (c2rec2 dp []) := by
    unfold extractEmailFromSection
    rw [hv2]
    rfl
  have hs1 : jsTrim (jsSubstring c2body 0 135) = c2sec1 := rfl
  have hs2 : jsTrim (jsSubstring c2body 135 c2body.length) = c2sec2 := rfl
  have hmid : sectionRecords dp c2body sf 135 135 = [] := rfl
  have hc : collectSections dp c2body sf [0, 135, 135] =
      [c2rec1 dp sf, c2rec2 dp sf] := by
    show sectionRecords dp c2body sf 0 135 ++
      (sectionRecords dp c2body sf 135 135 ++ sectionRecords dp c2body sf 135 c2body.length) = _
    rw [hmid]
    simp only [sectionRecords]
    rw [hs1, hs2, hx1, hx2]
    rfl
  calc parseForwardedChain dp c2body sf
      = if 1 < (collectSections dp c2body sf [0, 135, 135]).length then
          collectSections dp c2body sf [0, 135, 135] else [] := rfl
    _ = [c2rec1 dp sf, c2rec2 dp sf] := by rw [hc]; rfl

/-! ## Claim C8 -/

/-- `takeWhile` passes over a block that wholly satisfies the predicate. -/
theorem takeWhile_append_all {α : Type} (p : α → Bool) (l r : List α)
    (h : ∀ a ∈ l, p a = true) :
    (l ++ r).takeWhile p = l ++ r.takeWhile p := by
  induction l with
  | nil => simp
  | cons a l ih =>
    have ha := h a (List.mem_cons_self a l)
    simp only [List.cons_append, List.takeWhile_cons, ha, if_true]
    rw [ih (fun x hx => h x (List.mem_cons_of_mem a hx))]

/-- A list is a prefix of itself followed by anything. -/
theorem startsWithE_refl_append (p r : List Char) : startsWithE p (p ++ r) = true := by
  induction p with
  | nil => rfl
  | cons c cs ih => simp [startsWithE, ih]

/-- Skipping exactly the length of a block consumes it. -/
theorem rmGo_skip (l rest : List Char) : rmGo l.length (l ++ rest) = rmGo 0 rest := by
  induction l with
  | nil => rfl
  | cons c cs ih =>
    show rmGo (Nat.succ cs.length) (c :: (cs ++ rest)) = rmGo 0 rest
    rw [rmGo]
    exact ih

/-- Character-list form of the mailto pattern. -/
theorem mailtoKeyChars :
    "<mailto:".toList = '<' :: 'm' :: 'a' :: 'i' :: 'l' :: 't' :: 'o' :: ':' :: [] := rfl

/-- A scan position whose character is not `<` never starts a mailto match. -/
theorem mailtoSplitLen_none_head (c : Char) (cs : List Char) (h : ¬(c = '<')) :
    mailtoSplitLen (c :: cs) = none := by
  simp [mailtoSplitLen, mailtoKeyChars, startsWithE, h]

/-- Scan step at a non-matching position. -/
theorem rmGo_cons_no (c : Char) (cs : List Char) (h : mailtoSplitLen (c :: cs) = none) :
    rmGo 0 (c :: cs) = c :: rmGo 0 cs := by
  simp [rmGo, h]

/-- The mailto regex matches `<mailto:ADDR>` whenever `ADDR` is non-empty and
free of `>`, and the match spans the whole decoration. -/
theorem mailtoSplitLen_at (addr : List Char) (h1 : addr ≠ []) (h2 : '>' ∉ addr) :
    mailtoSplitLen ("<mailto:".toList ++ (addr ++ ['>'])) = some (8 + addr.length + 1) := by
  have hsw := startsWithE_refl_append "<mailto:".toList (addr ++ ['>'])
  have hdrop : ("<mailto:".toList ++ (addr ++ ['>'])).drop 8 = addr ++ ['>'] := rfl
  have htw : (addr ++ ['>']).takeWhile (fun c => !(c = '>')) = addr := by
    rw [takeWhile_append_all _ addr ['>'] (fun a ha => by
      simp only [Bool.not_eq_true']
      exact decide_eq_false (fun hc => h2 (hc ▸ ha)))]
    simp
  simp only [mailtoSplitLen, hsw, if_true, hdrop, htw]
  rw [if_neg (by simp [h1]), if_pos (by simp)]

/-- The mailto decoration is deleted wholesale by the removal scan. -/
theorem removeMailto_c8 (addr : List Char) (h1 : addr ≠ []) (h2 : '>' ∉ addr) :
    rmGo 0 ("Jane Doe <mailto:".toList ++ (addr ++ ['>'])) = "Jane Doe ".toList := by
  show rmGo 0 ('J' :: 'a' :: 'n' :: 'e' :: ' ' :: 'D' :: 'o' :: 'e' :: ' ' ::
    ("<mailto:".toList ++ (addr ++ ['>']))) = "Jane Doe ".toList
  rw [rmGo_cons_no _ _ (mailtoSplitLen_none_head _ _ (by decide))]
  rw [rmGo_cons_no _ _ (mailtoSplitLen_none_head _ _ (by decide))]
  rw [rmGo_cons_no _ _ (mailtoSplitLen_none_head _ _ (by decide))]
  rw [rmGo_cons_no _ _ (mailtoSplitLen_none_head _ _ (by decide))]
  rw [rmGo_cons_no _ _ (mailtoSplitLen_none_head _ _ (by decide))]
  rw [rmGo_cons_no _ _ (mailtoSplitLen_none_head _ _ (by decide))]
  rw [rmGo_cons_no _ _ (mailtoSplitLen_none_head _ _ (by decide))]
  rw [rmGo_cons_no _ _ (mailtoSplitLen_none_head _ _ (by decide))]
  rw [rmGo_cons_no _ _ (mailtoSplitLen_none_head _ _ (by decide))]
  have hm : mailtoSplitLen ('<' :: ("mailto:".toList ++ (addr ++ ['>']))) =
      some (8 + addr.length + 1) := mailtoSplitLen_at addr h1 h2
  have hz : rmGo 0 ('<' :: ("mailto:".toList ++ (addr ++ ['>']))) = [] := by
    rw [rmGo, hm]
    dsimp only
    have hsk : rmGo (("mailto:".toList ++ (addr ++ ['>'])).length)
        ("mailto:".toList ++ (addr ++ ['>'])) = [] := by
      have h := rmGo_skip ("mailto:".toList ++ (addr ++ ['>'])) []
      rw [List.append_nil] at h
      exact h
    have hlen : ("mailto:".toList ++ (addr ++ ['>'])).length = 8 + addr.length + 1 - 1 := by
      simp [List.length_append]
      omega
    rw [← hlen]
    exact hsk
  have hcons : ('<' :: ("mailto:".toList ++ (addr ++ ['>']))) =
      ("<mailto:".toList ++ (addr ++ ['>'])) := rfl
  rw [show ("<mailto:".toList ++ (addr ++ ['>'])) =
    ('<' :: ("mailto:".toList ++ (addr ++ ['>']))) from rfl, hz]
  rfl

/-- Claim C8: `cleanEmailText` deletes a `<mailto:ADDR>` decoration entirely
(the address is not substituted back): for every non-empty `ADDR` free of
`>`, cleaning `"Jane Doe <mailto:ADDR>"` yields exactly `"Jane Doe"`. -/
theorem clean_mailto_deleted (addr : List Char) (h1 : addr ≠ []) (h2 : '>' ∉ addr) :
    cleanEmailText ("Jane Doe <mailto:".toList ++ (addr ++ ['>'])) = "Jane Doe".toList := by
  have hne : ("Jane Doe <mailto:".toList ++ (addr ++ ['>'])) ≠ [] := by simp
  unfold cleanEmailText
  rw [if_neg hne]
  have hrm : removeMailto ("Jane Doe <mailto:".toList ++ (addr ++ ['>'])) =
      "Jane Doe ".toList := removeMailto_c8 addr h1 h2
  rw [show removeDup (removeMailto ("Jane Doe <mailto:".toList ++ (addr ++ ['>']))) =
    removeDup "Jane Doe ".toList from by rw [hrm]]
  rfl

/-- Witness for claim C8: the spec's own example
`clean("Jane Doe <mailto:jane@x.com>") = "Jane Doe"`. -/
theorem clean_mailto_deleted_witness :
    cleanEmailText "Jane Doe <mailto:jane@x.com>".toList = "Jane Doe".toList :=
  clean_mailto_deleted "jane@x.com".toList (by decide) (by decide)

/-! ## Claim C7 -/

/-- `splitNl` cuts exactly at an explicit newline after a newline-free block. -/
theorem splitNl_block (l rest : List Char) (h : '\n' ∉ l) :
    splitNl (l ++ '\n' :: rest) = l :: splitNl rest := by
  induction l with
  | nil => simp [splitNl]
  | cons c cs ih =>
    have hc : ¬(c = '\n') := fun hh => h (hh ▸ List.mem_cons_self c cs)
    have hsub : '\n' ∉ cs := fun hx => h (List.mem_cons_of_mem c hx)
    rw [show (c :: cs) ++ '\n' :: rest = c :: (cs ++ '\n' :: rest) from rfl]
    rw [splitNl, if_neg hc, ih hsub]

/-- One step of the continuation inner loop: a non-blank, non-header line is
appended (space-joined) to the accumulating header value. -/
theorem hGo_collect_cont (dp : List Char → Option Int) (ht : HType) (acc : List Char)
    (st : HSt) (l : List Char) (rest : List (List Char))
    (hne : jsTrim l ≠ []) (hh : headerStartTest (jsTrim l) = false) :
    hGo dp (some (ht, acc)) st (l :: rest) =
      hGo dp (some (ht, acc ++ (if acc.isEmpty then [] else [' ']) ++ jsTrim l)) st rest := by
  have hne' : (jsTrim l).isEmpty = false := by
    simp [List.isEmpty_iff, hne]
  simp only [hGo, hne', Bool.false_eq_true, if_false, hh]

/-- The record shape C7's one-continuation-line section produces. -/
theorem computeFields_c7A (dp : List Char → Option Int) (n1 : List Char)
    (ha : '\n' ∉ n1) (hb : jsTrim n1 ≠ []) (hc : headerStartTest (jsTrim n1) = false) :
    computeFields dp (c7secA n1) =
      { from_ := cleanEmailText (jsTrim n1), subject := "Hello".toList,
        body := "Body.".toList } := by
  have hsplit : splitNl (c7secA n1) =
      "From:".toList :: n1 :: "Subject: Hello".toList :: [] :: "Body.".toList :: [] := by
    unfold c7secA
    rw [splitNl_block "From:".toList _ (by decide), splitNl_block n1 _ ha]
    rfl
  have hloop : hGo dp none ⟨{}, false⟩
      ("From:".toList :: n1 :: "Subject: Hello".toList :: [] :: "Body.".toList :: []) =
      (⟨{ from_ := cleanEmailText (jsTrim n1), subject := "Hello".toList }, true⟩,
        ["Body.".toList]) := by
    rw [show hGo dp none ⟨{}, false⟩
        ("From:".toList :: n1 :: "Subject: Hello".toList :: [] :: "Body.".toList :: []) =
      hGo dp (some (.hFrom, []))  ⟨{}, false⟩
        (n1 :: "Subject: Hello".toList :: [] :: "Body.".toList :: []) from rfl]
    rw [hGo_collect_cont dp .hFrom [] ⟨{}, false⟩ n1 _ hb hc]
    rw [show (([] : List Char) ++ (if ([] : List Char).isEmpty then [] else [' ']) ++
      jsTrim n1) = jsTrim n1 from by simp]
    rfl
  unfold computeFields
  rw [hsplit]
  show (fun p : HSt × List (List Char) =>
      if p.2.isEmpty then p.1.em else {p.1.em with body := jsTrim (joinNl p.2)})
    (hGo dp none ⟨{}, false⟩
      ("From:".toList :: n1 :: "Subject: Hello".toList :: [] :: "Body.".toList :: [])) = _
  rw [hloop]
  rfl

/-- The record shape C7's two-continuation-line section produces: the two
lines are space-joined into a single value. -/
theorem computeFields_c7B (dp : List Char → Option Int) (n1 n2 : List Char)
    (ha1 : '\n' ∉ n1) (hb1 : jsTrim n1 ≠ []) (hc1 : headerStartTest (jsTrim n1) = false)
    (ha2 : '\n' ∉ n2) (hb2 : jsTrim n2 ≠ []) (hc2 : headerStartTest (jsTrim n2) = false) :
    computeFields dp (c7secB n1 n2) =
      { from_ := cleanEmailText (jsTrim n1 ++ ' ' :: jsTrim n2),
        subject := "Hello".toList, body := "Body.".toList } := by
  have hsplit : splitNl (c7secB n1 n2) =
      "From:".toList :: n1 :: n2 :: "Subject: Hello".toList :: [] :: "Body.".toList :: [] := by
    unfold c7secB
    rw [splitNl_block "From:".toList _ (by decide), splitNl_block n1 _ ha1,
      splitNl_block n2 _ ha2]
    rfl
  have hloop : hGo dp none ⟨{}, false⟩
      ("From:".toList :: n1 :: n2 :: "Subject: Hello".toList :: [] :: "Body.".toList :: []) =
      (⟨{ from_ := cleanEmailText (jsTrim n1 ++ ' ' :: jsTrim n2),
          subject := "Hello".toList }, true⟩, ["Body.".toList]) := by
    rw [show hGo dp none ⟨{}, false⟩
        ("From:".toList :: n1 :: n2 :: "Subject: Hello".toList :: [] :: "Body.".toList :: []) =
      hGo dp (some (.hFrom, [])) ⟨{}, false⟩
        (n1 :: n2 :: "Subject: Hello".toList :: [] :: "Body.".toList :: []) from rfl]
    rw [hGo_collect_cont dp .hFrom [] ⟨{}, false⟩ n1 _ hb1 hc1]
    rw [show (([] : List Char) ++ (if ([] : List Char).isEmpty then [] else [' ']) ++
      jsTrim n1) = jsTrim n1 from by simp]
    rw [hGo_collect_cont dp .hFrom (jsTrim n1) ⟨{}, false⟩ n2 _ hb2 hc2]
    rw [show (jsTrim n1 ++ (if (jsTrim n1).isEmpty then [] else [' ']) ++ jsTrim n2) =
      jsTrim n1 ++ ' ' :: jsTrim n2 from by
        have : (jsTrim n1).isEmpty = false := by simp [List.isEmpty_iff, hb1]
        simp [this, List.append_assoc]]
    rfl
  unfold computeFields
  rw [hsplit]
  show (fun p : HSt × List (List Char) =>
      if p.2.isEmpty then p.1.em else {p.1.em with body := jsTrim (joinNl p.2)})
    (hGo dp none ⟨{}, false⟩
      ("From:".toList :: n1 :: n2 :: "Subject: Hello".toList :: [] :: "Body.".toList :: [])) = _
  rw [hloop]
  rfl

/-- Claim C7: a header line whose captured value is empty (or shorter than 3
characters) absorbs the following lines, space-joined, until a blank or
header line; a `From:` line with empty value followed by one name line
yields that single cleaned value, and with two name lines yields the two
trimmed lines space-joined and cleaned; the continuation stops at the
following `Subject:` header line, which is parsed normally. -/
theorem continuation_header_merged (dp : List Char → Option Int) (n1 n2 : List Char)
    (ha1 : '\n' ∉ n1) (hb1 : jsTrim n1 ≠ []) (hc1 : headerStartTest (jsTrim n1) = false)
    (hd1 : cleanEmailText (jsTrim n1) ≠ [])
    (ha2 : '\n' ∉ n2) (hb2 : jsTrim n2 ≠ []) (hc2 : headerStartTest (jsTrim n2) = false)
    (hd2 : cleanEmailText (jsTrim n1 ++ ' ' :: jsTrim n2) ≠ []) :
    extractEmailFromSection dp (c7secA n1) =
      some { from_ := cleanEmailText (jsTrim n1), subject := "Hello".toList,
             body := "Body.".toList } ∧
    extractEmailFromSection dp (c7secB n1 n2) =
      some { from_ := cleanEmailText (jsTrim n1 ++ ' ' :: jsTrim n2),
             subject := "Hello".toList, body := "Body.".toList } := by
  constructor
  · unfold extractEmailFromSection
    rw [computeFields_c7A dp n1 ha1 hb1 hc1]
    have hv : validB { from_ := cleanEmailText (jsTrim n1), subject := "Hello".toList,
                       body := "Body.".toList } = true := by
      simp [validB, List.isEmpty_iff, hd1]
    simp only [hv, if_true]
  · unfold extractEmailFromSection
    rw [computeFields_c7B dp n1 n2 ha1 hb1 hc1 ha2 hb2 hc2]
    have hv : validB { from_ := cleanEmailText (jsTrim n1 ++ ' ' :: jsTrim n2),
                       subject := "Hello".toList, body := "Body.".toList } = true := by
      simp [validB, List.isEmpty_iff, hd2]
    simp only [hv, if_true]

/-- Witness for claim C7 at `From:` followed by the names `Jane Doe` and
`Smith`. -/
theorem continuation_header_merged_witness :
    extractEmailFromSection dpNone (c7secA "Jane Doe".toList) =
      some { from_ := "Jane Doe".toList, subject := "Hello".toList,
             body := "Body.".toList } ∧
    extractEmailFromSection dpNone (c7secB "Jane Doe".toList "Smith".toList) =
      some { from_ := "Jane Doe Smith".toList, subject := "Hello".toList,
             body := "Body.".toList } := by
  have h := continuation_header_merged dpNone "Jane Doe".toList "Smith".toList
    (by decide) (by decide) (by decide) (by decide)
    (by decide) (by decide) (by decide) (by decide)
  exact ⟨h.1, h.2⟩

/-! ## Claim C6 -/

/-- The collapser in run-consuming mode starts its output with a
non-whitespace character. -/
theorem cwGo_true_headOK (s : List Char) : headOK (cwGo true s) := by
  induction s with
  | nil => simp [cwGo, headOK]
  | cons c cs ih =>
    cases hw : jsWS c with
    | true => simpa [cwGo, hw] using ih
    | false => simp [cwGo, hw, headOK]

/-- The collapser never emits two adjacent whitespace characters. -/
theorem cwGo_okWS (s : List Char) (b : Bool) : okWS (cwGo b s) := by
  induction s generalizing b with
  | nil => simp [cwGo, okWS]
  | cons c cs ih =>
    cases hw : jsWS c with
    | true =>
      cases b with
      | true => simpa [cwGo, hw] using ih true
      | false =>
        simp only [cwGo, hw, eq_self_iff_true, if_true, Bool.false_eq_true, if_false]
        rw [okWS, List.chain'_cons']
        refine ⟨?_, ih true⟩
        intro y hy
        have := cwGo_true_headOK cs y hy
        simp [this]
    | false =>
      simp only [cwGo, hw, Bool.false_eq_true, if_false]
      rw [okWS, List.chain'_cons']
      refine ⟨?_, ih false⟩
      intro y hy
      simp [hw]

/-- Every whitespace character the collapser emits is a plain space. -/
theorem cwGo_spacesOnly (s : List Char) (b : Bool) : spacesOnly (cwGo b s) := by
  induction s generalizing b with
  | nil => simp [cwGo, spacesOnly]
  | cons c cs ih =>
    cases hw : jsWS c with
    | true =>
      cases b with
      | true => simpa [cwGo, hw] using ih true
      | false =>
        simp only [cwGo, hw, eq_self_iff_true, if_true, Bool.false_eq_true, if_false]
        intro x hx hwx
        rcases List.mem_cons.1 hx with h | h
        · exact h
        · exact ih true x h hwx
    | false =>
      simp only [cwGo, hw, Bool.false_eq_true, if_false]
      intro x hx hwx
      rcases List.mem_cons.1 hx with h | h
      · rw [h] at hwx
        rw [hwx] at hw
        cases hw
      · exact ih false x h hwx

/-- Every character the collapser emits is a space or a character of the
input. -/
theorem cwGo_mem (s : List Char) (b : Bool) (c : Char) (h : c ∈ cwGo b s) :
    c = ' ' ∨ c ∈ s := by
  induction s generalizing b with
  | nil => simp [cwGo] at h
  | cons d ds ih =>
    cases hw : jsWS d with
    | true =>
      cases b with
      | true =>
        rw [cwGo, hw] at h
        simp only [eq_self_iff_true, if_true, Bool.false_eq_true, if_false] at h
        rcases ih true h with h1 | h1
        · exact Or.inl h1
        · exact Or.inr (List.mem_cons_of_mem d h1)
      | false =>
        rw [cwGo, hw] at h
        simp only [eq_self_iff_true, if_true, Bool.false_eq_true, if_false] at h
        rcases List.mem_cons.1 h with h1 | h1
        · exact Or.inl h1
        · rcases ih true h1 with h2 | h2
          · exact Or.inl h2
          · exact Or.inr (List.mem_cons_of_mem d h2)
    | false =>
      rw [cwGo, hw] at h
      simp only [Bool.false_eq_true, if_false] at h
      rcases List.mem_cons.1 h with h1 | h1
      · exact Or.inr (h1 ▸ List.mem_cons_self d ds)
      · rcases ih false h1 with h2 | h2
        · exact Or.inl h2
        · exact Or.inr (List.mem_cons_of_mem d h2)

/-- Dropping leading whitespace leaves a non-whitespace head. -/
theorem dropWhile_headOK (z : List Char) : headOK (z.dropWhile jsWS) := by
  induction z with
  | nil => simp [headOK]
  | cons c cs ih =>
    cases hw : jsWS c with
    | true => simpa [List.dropWhile_cons, hw] using ih
    | false => simp [List.dropWhile_cons, hw, headOK]

/-- Dropping leading whitespace preserves a non-whitespace last character. -/
theorem dropWhile_lastOK (z : List Char) (h : lastOK z) : lastOK (z.dropWhile jsWS) := by
  induction z with
  | nil => simpa using h
  | cons c cs ih =>
    cases hw : jsWS c with
    | true =>
      simp only [List.dropWhile_cons, hw, if_true]
      apply ih
      cases cs with
      | nil => simp [lastOK]
      | cons d ds =>
        intro x hx
        exact h x (by rw [List.getLast?_cons_cons]; exact hx)
    | false => simpa [List.dropWhile_cons, hw] using h

/-- `okWS` survives reversal (the no-two-adjacent relation is symmetric). -/
theorem okWS_reverse (z : List Char) (h : okWS z) : okWS z.reverse := by
  rw [okWS, List.chain'_reverse]
  exact List.Chain'.imp (fun a b hab => fun ⟨x, y⟩ => hab ⟨y, x⟩) h

/-- `okWS` passes to suffixes, in particular through `dropWhile`. -/
theorem okWS_dropWhile (z : List Char) (h : okWS z) : okWS (z.dropWhile jsWS) :=
  List.Chain'.suffix h (List.dropWhile_suffix jsWS)

/-- `spacesOnly` passes to any sublist of characters. -/
theorem spacesOnly_dropWhile (z : List Char) (h : spacesOnly z) :
    spacesOnly (z.dropWhile jsWS) :=
  fun c hc => h c ((List.dropWhile_suffix jsWS).subset hc)

/-- `spacesOnly` survives reversal. -/
theorem spacesOnly_reverse (z : List Char) (h : spacesOnly z) : spacesOnly z.reverse :=
  fun c hc => h c (List.mem_reverse.1 hc)

/-- Head of the reversal is the last character. -/
theorem headOK_reverse_iff (z : List Char) : headOK z.reverse ↔ lastOK z := by
  simp [headOK, lastOK, List.head?_reverse]

/-- A list with a non-whitespace head is untouched by `dropWhile jsWS`. -/
theorem dropWhile_eq_self_of_headOK (z : List Char) (h : headOK z) :
    z.dropWhile jsWS = z := by
  cases z with
  | nil => rfl
  | cons c cs =>
    have := h c (by simp)
    simp [List.dropWhile_cons, this]

/-- A collapsed list (no adjacent whitespace, whitespace only as spaces) is a
fixed point of the collapser. -/
theorem cwGo_fixed (z : List Char) (h1 : okWS z) (h2 : spacesOnly z) :
    cwGo false z = z ∧ (headOK z → cwGo true z = z) := by
  induction z with
  | nil => exact ⟨rfl, fun _ => rfl⟩
  | cons c cs ih =>
    have hcs1 : okWS cs := (List.chain'_cons'.1 h1).2
    have hlink : ∀ y ∈ cs.head?, ¬(jsWS c = true ∧ jsWS y = true) :=
      (List.chain'_cons'.1 h1).1
    have hcs2 : spacesOnly cs := fun x hx => h2 x (List.mem_cons_of_mem c hx)
    have ih' := ih hcs1 hcs2
    cases hw : jsWS c with
    | true =>
      have hc : c = ' ' := h2 c (List.mem_cons_self c cs) hw
      have hhead : headOK cs := by
        intro y hy
        have := hlink y hy
        cases hy2 : jsWS y with
        | true => exact absurd ⟨hw, hy2⟩ this
        | false => rfl
      constructor
      · simp only [cwGo, hw, eq_self_iff_true, if_true, Bool.false_eq_true, if_false]
        rw [ih'.2 hhead, hc]
      · intro hh
        have := hh c (by simp)
        rw [hw] at this
        cases this
    | false =>
      constructor
      · simp only [cwGo, hw, Bool.false_eq_true, if_false]
        rw [ih'.1]
      · intro _
        simp only [cwGo, hw, Bool.false_eq_true, if_false]
        rw [ih'.1]

/-- A list trimmed at both ends is a fixed point of `jsTrim`. -/
theorem jsTrim_fixed (z : List Char) (hh : headOK z) (hl : lastOK z) : jsTrim z = z := by
  unfold jsTrim
  rw [dropWhile_eq_self_of_headOK z.reverse ((headOK_reverse_iff z).2 hl)]
  rw [List.reverse_reverse]
  exact dropWhile_eq_self_of_headOK z hh

/-- The four structural facts about any trimmed collapsed list. -/
theorem jsTrim_props (z : List Char) (h1 : okWS z) (h2 : spacesOnly z) :
    okWS (jsTrim z) ∧ spacesOnly (jsTrim z) ∧ headOK (jsTrim z) ∧ lastOK (jsTrim z) := by
  unfold jsTrim
  have hA1 : okWS z.reverse := okWS_reverse z h1
  have hA2 : spacesOnly z.reverse := spacesOnly_reverse z h2
  have hB1 : okWS (z.reverse.dropWhile jsWS) := okWS_dropWhile _ hA1
  have hB2 : spacesOnly (z.reverse.dropWhile jsWS) := spacesOnly_dropWhile _ hA2
  have hBhead : headOK (z.reverse.dropWhile jsWS) := dropWhile_headOK _
  have hC1 : okWS (z.reverse.dropWhile jsWS).reverse := okWS_reverse _ hB1
  have hC2 : spacesOnly (z.reverse.dropWhile jsWS).reverse := spacesOnly_reverse _ hB2
  have hClast : lastOK (z.reverse.dropWhile jsWS).reverse := by
    rw [← headOK_reverse_iff, List.reverse_reverse]
    exact hBhead
  refine ⟨okWS_dropWhile _ hC1, spacesOnly_dropWhile _ hC2, dropWhile_headOK _,
    dropWhile_lastOK _ hClast⟩

/-- Characters of the trimmed list are characters of the list. -/
theorem jsTrim_subset (z : List Char) (c : Char) (h : c ∈ jsTrim z) : c ∈ z := by
  unfold jsTrim at h
  have h1 := (List.dropWhile_suffix jsWS).subset h
  rw [List.mem_reverse] at h1
  have h2 := (List.dropWhile_suffix jsWS).subset h1
  rwa [List.mem_reverse] at h2

/-- Without `<` in the input, the mailto-removal scan is the identity. -/
theorem rmGo_id_no_lt (s : List Char) (h : '<' ∉ s) : rmGo 0 s = s := by
  induction s with
  | nil => rfl
  | cons c cs ih =>
    have hc : ¬(c = '<') := fun hh => h (hh ▸ List.mem_cons_self c cs)
    rw [rmGo_cons_no _ _ (mailtoSplitLen_none_head _ _ hc),
      ih (fun hx => h (List.mem_cons_of_mem c hx))]

/-- Without `<` in the input, the duplicate-address pattern cannot match at
any position. -/
theorem dupSplit_none_no_lt (s : List Char) (h : '<' ∉ s) : dupSplit s = none := by
  have hsw : ∀ n : Nat,
      startsWithE ('<' :: ((s.takeWhile fun c => !jsWS c) ++ ['>'])) (s.drop n) = false := by
    intro n
    cases hx : s.drop n with
    | nil => rfl
    | cons d ds =>
      have hd : d ∈ s := by
        have h1 : d ∈ s.drop n := by
          rw [hx]; exact List.mem_cons_self d ds
        exact List.drop_subset _ s h1
      have hdne : ¬(d = '<') := fun hh => h (hh ▸ hd)
      simp [startsWithE, hdne]
  unfold dupSplit
  dsimp only
  split_ifs with h1 h2 h3 h4
  all_goals try rfl
  simp [hsw] at h4

/-- Scan step of the duplicate-address pass at a non-matching position. -/
theorem rdGo_cons_no (c : Char) (cs : List Char) (h : dupSplit (c :: cs) = none) :
    rdGo 0 (c :: cs) = c :: rdGo 0 cs := by
  rw [show rdGo 0 (c :: cs) = (match dupSplit (c :: cs) with
    | some (g, len) => g ++ rdGo (len - 1) cs
    | none => c :: rdGo 0 cs) from rfl, h]

/-- Without `<` in the input, the duplicate-address scan is the identity. -/
theorem rdGo_id_no_lt (s : List Char) (h : '<' ∉ s) : rdGo 0 s = s := by
  induction s with
  | nil => rfl
  | cons c cs ih =>
    rw [rdGo_cons_no _ _ (dupSplit_none_no_lt (c :: cs) h),
      ih (fun hx => h (List.mem_cons_of_mem c hx))]

set_option maxHeartbeats 1600000 in
set_option maxRecDepth 40000 in
/-- Counterexample to claim C6 as stated: cleaning is not idempotent over all
strings.  Removing the inner `<mailto:a>` of `"<mai<mailto:a>lto:b>"`
splices the remaining text into a fresh `<mailto:b>` decoration, which the
first pass does not rescan but a second pass deletes. -/
theorem clean_not_idempotent_cex :
    cleanEmailText (cleanEmailText "<mai<mailto:a>lto:b>".toList) ≠
      cleanEmailText "<mai<mailto:a>lto:b>".toList := by
  decide

/-- Claim C6, amended: `cleanEmailText` is idempotent on every string that
contains no `<` character (on such strings the mailto and
duplicate-address passes are the identity, and collapse-then-trim is
idempotent); full idempotence fails, see the counterexample. -/
theorem clean_idempotent_no_lt (s : List Char) (h : '<' ∉ s) :
    cleanEmailText (cleanEmailText s) = cleanEmailText s := by
  by_cases hs : s = []
  · rw [hs]
    rfl
  · have h1 : cleanEmailText s = jsTrim (collapseWS s) := by
      unfold cleanEmailText
      rw [if_neg hs]
      unfold removeMailto removeDup
      rw [rmGo_id_no_lt s h, rdGo_id_no_lt s h]
    rw [h1]
    by_cases hy : jsTrim (collapseWS s) = []
    · rw [hy]
      rfl
    · have hmem : '<' ∉ jsTrim (collapseWS s) := by
        intro hin
        rcases cwGo_mem s false '<' (jsTrim_subset _ '<' hin) with hsp | hsp
        · cases hsp
        · exact h hsp
      have hprops := jsTrim_props (collapseWS s) (cwGo_okWS s false) (cwGo_spacesOnly s false)
      unfold cleanEmailText
      rw [if_neg hy]
      unfold removeMailto removeDup
      rw [rmGo_id_no_lt _ hmem, rdGo_id_no_lt _ hmem]
      show jsTrim (cwGo false (jsTrim (collapseWS s))) = jsTrim (collapseWS s)
      rw [(cwGo_fixed _ hprops.1 hprops.2.1).1]
      exact jsTrim_fixed _ hprops.2.2.1 hprops.2.2.2

/-- Witness for claim C6 (amended) at the `<`-free string `"a  b"`. -/
theorem clean_idempotent_no_lt_witness :
    cleanEmailText (cleanEmailText "a  b".toList) = cleanEmailText "a  b".toList :=
  clean_idempotent_no_lt "a  b".toList (by decide)
